import Mathlib

/-
  Verification development for the console-statement detector and remover of
  the js-project-console-cleaner extension (src/extension.ts).

  The core operations are countConsoleLogs (the detector) and removeConsoleLogs
  (the remover).  Both are built from JavaScript regular expressions, so the
  embedding below first gives a small backtracking regex engine with the exact
  ECMAScript semantics the source relies on: ordered alternation, greedy and
  lazy quantifiers with the empty-iteration guard, multiline anchors, dot that
  excludes line terminators, and the scanning discipline of String.prototype
  replace and match with the g flag (non-overlapping, leftmost, resuming after
  each match, advancing by one character on an empty match).  The seven
  patterns of the source are then transcribed literally and the two operations
  are assembled exactly as in removeConsoleLogs and countConsoleLogs.
-/

namespace ConsoleCleaner

/-- The left-brace character (code point 123). -/
def lbrace : Char := Char.ofNat 123

/-- The right-brace character (code point 125). -/
def rbrace : Char := Char.ofNat 125

/-- The single-quote character (code point 39), used to build test texts. -/
def sq : Char := Char.ofNat 39

/-- ECMAScript line terminators: LF, CR, LINE SEPARATOR, PARAGRAPH SEPARATOR. -/
def isLineTerm (c : Char) : Bool :=
  c = '\n' || c = '\r' || c.toNat = 0x2028 || c.toNat = 0x2029

/-- The character set matched by the regex escape backslash-s in ECMAScript:
WhiteSpace together with LineTerminator. -/
def isJsWs (c : Char) : Bool :=
  let n := c.toNat
  c = ' ' || c = '\t' || c = '\n' || c = '\r' ||
  n = 0x0B || n = 0x0C || n = 0xA0 || n = 0x1680 ||
  (0x2000 ≤ n && n ≤ 0x200A) || n = 0x2028 || n = 0x2029 ||
  n = 0x202F || n = 0x205F || n = 0x3000 || n = 0xFEFF

/-- The character classes appearing in the seven patterns of the source. -/
inductive CClass
  | ws            -- backslash-s
  | spaceTab      -- [ \t]
  | notSemi       -- [^;]
  | notParen      -- [^)]
  | notSemiBrace  -- [^;{}]
  | anyCh         -- [\s\S]
  | dotNoNL       -- . without the s flag
deriving DecidableEq

/-- Membership test of a character class. -/
def CClass.mem : CClass → Char → Bool
  | .ws, c => isJsWs c
  | .spaceTab, c => c = ' ' || c = '\t'
  | .notSemi, c => !(c = ';')
  | .notParen, c => !(c = ')')
  | .notSemiBrace, c => !(c = ';' || c = lbrace || c = rbrace)
  | .anyCh, _ => true
  | .dotNoNL, c => !(isLineTerm c)

/-- Abstract syntax of the regex fragment used by the source patterns. -/
inductive Regex
  | eps
  | lit (c : Char)
  | cls (cc : CClass)
  | seq (r1 r2 : Regex)
  | alt (r1 r2 : Regex)
  | opt (r : Regex)       -- greedy ?
  | star (r : Regex)      -- greedy *
  | starL (r : Regex)     -- lazy *?
  | bol                   -- ^ with the m flag
  | eol                   -- $ with the m flag

/-- Start-of-line test for the multiline caret: start of input or right after a
line terminator.  The matcher state keeps the previously consumed character. -/
def bolHolds : Option Char → Bool
  | none => true
  | some c => isLineTerm c

/-- End-of-line test for the multiline dollar: end of input or right before a
line terminator. -/
def eolHolds : List Char → Bool
  | [] => true
  | c :: _ => isLineTerm c

/-- Continuations of the backtracking matcher: they receive the previous
character and the remaining input and either accept or fail. -/
abbrev MatchK := Option Char → List Char → Option (Option Char × List Char)

/-- One layer of the backtracking matcher, with ECMAScript preference order:
alternation tries the left alternative first, greedy quantifiers try to
consume first, lazy quantifiers try to stop first, and a quantifier iteration
that consumes nothing is abandoned (the ECMAScript empty-iteration guard).
The parameter later is the matcher with one unit of fuel less, used when a
quantifier loops after a consuming iteration. -/
def matGo (later : Regex → Option Char → List Char → MatchK →
    Option (Option Char × List Char)) :
    Regex → Option Char → List Char → MatchK → Option (Option Char × List Char)
  | .eps, p, rest, k => k p rest
  | .lit c, _, rest, k =>
    match rest with
    | [] => none
    | d :: rest2 => if d = c then k (some d) rest2 else none
  | .cls cc, _, rest, k =>
    match rest with
    | [] => none
    | d :: rest2 => if cc.mem d then k (some d) rest2 else none
  | .seq r1 r2, p, rest, k =>
    matGo later r1 p rest (fun q mid => matGo later r2 q mid k)
  | .alt r1 r2, p, rest, k =>
    match matGo later r1 p rest k with
    | some res => some res
    | none => matGo later r2 p rest k
  | .opt r, p, rest, k =>
    match matGo later r p rest k with
    | some res => some res
    | none => k p rest
  | .star r, p, rest, k =>
    match matGo later r p rest (fun q mid =>
        if mid.length < rest.length then later (.star r) q mid k else none) with
    | some res => some res
    | none => k p rest
  | .starL r, p, rest, k =>
    match k p rest with
    | some res => some res
    | none => matGo later r p rest (fun q mid =>
        if mid.length < rest.length then later (.starL r) q mid k else none)
  | .bol, p, rest, k => if bolHolds p then k p rest else none
  | .eol, p, rest, k => if eolHolds rest then k p rest else none

/-- The backtracking matcher.  The fuel bounds the number of quantifier
iterations; every iteration consumes at least one character, so any fuel
larger than the input length is enough. -/
def mat : Nat → Regex → Option Char → List Char → MatchK →
    Option (Option Char × List Char)
  | 0 => matGo (fun _ _ _ _ => none)
  | f + 1 => matGo (mat f)

/-- Try to match the regex at the current position, returning the state after
the preferred match.  The fuel is one more than the remaining length, which is
always sufficient. -/
def matchAt (r : Regex) (p : Option Char) (rest : List Char) :
    Option (Option Char × List Char) :=
  mat (rest.length + 1) r p rest (fun q mid => some (q, mid))

/-- Scanning loop of String.prototype.match with the g flag: count the
non-overlapping matches from left to right, advancing by one character when
there is no match or an empty match at the current position. -/
def cntAux (r : Regex) : Nat → Option Char → List Char → Nat
  | 0, _, _ => 0
  | fuel + 1, p, rest =>
    match matchAt r p rest with
    | none =>
      match rest with
      | [] => 0
      | c :: rest2 => cntAux r fuel (some c) rest2
    | some (q, mid) =>
      if mid.length < rest.length then 1 + cntAux r fuel q mid
      else
        match rest with
        | [] => 1
        | c :: rest2 => 1 + cntAux r fuel (some c) rest2

/-- Number of matches of a regex in a text, as text.match(regex).length with
the g flag (0 when there is no match). -/
def countMatches (r : Regex) (l : List Char) : Nat :=
  cntAux r (l.length + 1) none l

/-- Scanning loop of String.prototype.replace with the g flag and a
replacement function: copy unmatched characters, apply the replacement to each
matched substring, resume after the match, and advance one character after an
empty match. -/
def repAux (r : Regex) (rep : List Char → List Char) :
    Nat → Option Char → List Char → List Char
  | 0, _, rest => rest
  | fuel + 1, p, rest =>
    match matchAt r p rest with
    | none =>
      match rest with
      | [] => []
      | c :: rest2 => c :: repAux r rep fuel (some c) rest2
    | some (q, mid) =>
      if mid.length < rest.length then
        rep (rest.take (rest.length - mid.length)) ++ repAux r rep fuel q mid
      else
        match rest with
        | [] => rep []
        | c :: rest2 => rep [] ++ c :: repAux r rep fuel (some c) rest2

/-- text.replace(regex, rep) with the g flag. -/
def replaceAll (r : Regex) (rep : List Char → List Char) (l : List Char) :
    List Char :=
  repAux r rep (l.length + 1) none l

/-- Prepend a character to the leading unmatched gap of a match decomposition. -/
def consGap (c : Char) :
    List (List Char × List Char) × List Char →
    List (List Char × List Char) × List Char
  | ([], tg) => ([], c :: tg)
  | ((g, m) :: ps, tg) => ((c :: g, m) :: ps, tg)

/-- The decomposition of a text produced by the replace scan: a list of
(unmatched gap, matched substring) pairs followed by the trailing gap. -/
def partsAux (r : Regex) : Nat → Option Char → List Char →
    List (List Char × List Char) × List Char
  | 0, _, rest => ([], rest)
  | fuel + 1, p, rest =>
    match matchAt r p rest with
    | none =>
      match rest with
      | [] => ([], [])
      | c :: rest2 => consGap c (partsAux r fuel (some c) rest2)
    | some (q, mid) =>
      if mid.length < rest.length then
        let pr := partsAux r fuel q mid
        (([], rest.take (rest.length - mid.length)) :: pr.1, pr.2)
      else
        match rest with
        | [] => ([([], [])], [])
        | c :: rest2 =>
          let pr := consGap c (partsAux r fuel (some c) rest2)
          (([], []) :: pr.1, pr.2)

/-- Reassemble a decomposition, transforming every matched substring. -/
def joinP (rep : List Char → List Char)
    (pr : List (List Char × List Char) × List Char) : List Char :=
  pr.1.foldr (fun gm acc => gm.1 ++ rep gm.2 ++ acc) pr.2

/-- A string literal as a regex. -/
def strLit : List Char → Regex
  | [] => .eps
  | c :: cs => .seq (.lit c) (strLit cs)

/-- The ordered alternation built by joining the configured method names with
the | character, as in methods.join in the source. -/
def altOf : List (List Char) → Regex
  | [] => .eps
  | [m] => strLit m
  | m :: ms => .alt (strLit m) (altOf ms)

/-- backslash-s star. -/
def wsStar : Regex := .star (.cls .ws)

/-- The shared core of every pattern in the source, and the entire detector
pattern of countConsoleLogs: console backslash-s* dot backslash-s* (methods)
backslash-s* opening parenthesis, built with new RegExp in the source. -/
def detPat (ms : List (List Char)) : Regex :=
  .seq (strLit ('c' :: 'o' :: 'n' :: 's' :: 'o' :: 'l' :: 'e' :: []))
    (.seq wsStar
      (.seq (.lit '.')
        (.seq wsStar
          (.seq (altOf ms)
            (.seq wsStar (.lit '('))))))

/-- The trailing part backslash-s* ;? backslash-s* $ shared by the first two
patterns. -/
def statementEnd : Regex :=
  .seq wsStar (.seq (.opt (.lit ';')) (.seq wsStar .eol))

/-- Pattern 1 of removeConsoleLogs (flags gm):
^[ \t]*console\s*\.\s*(methods)\s*\([^;]*\)\s*;?\s*$ -/
def singleLinePattern (ms : List (List Char)) : Regex :=
  .seq .bol
    (.seq (.star (.cls .spaceTab))
      (.seq (detPat ms)
        (.seq (.star (.cls .notSemi))
          (.seq (.lit ')') statementEnd))))

/-- The group (?:\([^)]*\)[^)]*) of pattern 2. -/
def nestedParenGroup : Regex :=
  .seq (.lit '(')
    (.seq (.star (.cls .notParen))
      (.seq (.lit ')') (.star (.cls .notParen))))

/-- Pattern 2 of removeConsoleLogs (flags gm):
^[ \t]*console\s*\.\s*(methods)\s*\([^)]*(?:\([^)]*\)[^)]*)*\)\s*;?\s*$ -/
def multiLinePattern (ms : List (List Char)) : Regex :=
  .seq .bol
    (.seq (.star (.cls .spaceTab))
      (.seq (detPat ms)
        (.seq (.star (.cls .notParen))
          (.seq (.star nestedParenGroup)
            (.seq (.lit ')') statementEnd)))))

/-- Pattern 3 of removeConsoleLogs (flags gs):
console\s*\.\s*(methods)\s*\([^;{}]*?\)\s*;? -/
def complexPattern (ms : List (List Char)) : Regex :=
  .seq (detPat ms)
    (.seq (.starL (.cls .notSemiBrace))
      (.seq (.lit ')')
        (.seq wsStar (.opt (.lit ';')))))

/-- Pattern 4 of removeConsoleLogs (flags gm):
^[ \t]*\/\/\s*console\s*\.\s*(methods)\s*\(.*$ -/
def commentedPattern (ms : List (List Char)) : Regex :=
  .seq .bol
    (.seq (.star (.cls .spaceTab))
      (.seq (.lit '/')
        (.seq (.lit '/')
          (.seq wsStar
            (.seq (detPat ms)
              (.seq (.star (.cls .dotNoNL)) .eol))))))

/-- Pattern 5 of removeConsoleLogs (flag g):
\/\*[\s\S]*?console\s*\.\s*(methods)\s*\([\s\S]*?\*\/ -/
def blockCommentPattern (ms : List (List Char)) : Regex :=
  .seq (.lit '/')
    (.seq (.lit '*')
      (.seq (.starL (.cls .anyCh))
        (.seq (detPat ms)
          (.seq (.starL (.cls .anyCh))
            (.seq (.lit '*') (.lit '/'))))))

/-- The blank-line collapsing pattern of removeConsoleLogs (flag g):
\n\s*\n\s*\n\s*\n replaced by three newlines. -/
def blankLinePattern : Regex :=
  .seq (.lit '\n')
    (.seq wsStar
      (.seq (.lit '\n')
        (.seq wsStar
          (.seq (.lit '\n')
            (.seq wsStar (.lit '\n'))))))

/-- The trailing-whitespace pattern of removeConsoleLogs (flags gm):
^[ \t]+$ replaced by the empty string. -/
def trailingWsPattern : Regex :=
  .seq .bol (.seq (.cls .spaceTab) (.seq (.star (.cls .spaceTab)) .eol))

/-- Substring membership, as String.prototype.includes. -/
def hasPrefixL : List Char → List Char → Bool
  | _, [] => true
  | [], _ :: _ => false
  | c :: t, d :: t2 => c = d && hasPrefixL t t2

/-- hay.includes(need). -/
def containsSub (need : List Char) : List Char → Bool
  | [] => hasPrefixL [] need
  | c :: t => hasPrefixL (c :: t) need || containsSub need t

/-- hay.includes(c) for a single character. -/
def containsChar (m : List Char) (c : Char) : Bool :=
  m.any (fun d => d = c)

/-- The characters of the word function, tested by the pattern 3 callback. -/
def functionWord : List Char :=
  'f' :: 'u' :: 'n' :: 'c' :: 't' :: 'i' :: 'o' :: 'n' :: []

/-- The replacement callback of pattern 3 in the source: it splits the match
into lines and trims the first one (both results are unused), then erases the
match unless it includes a left brace or the word function. -/
def complexCallback (m : List Char) : List Char :=
  let _lines := (String.mk m).splitOn "\n"
  if !(containsChar m lbrace) && !(containsSub functionWord m) then
    []
  else m

/-- One application of the pattern 3 substitution. -/
def pass3Step (ms : List (List Char)) (l : List Char) : List Char :=
  replaceAll (complexPattern ms) complexCallback l

/-- The while loop around pattern 3: repeat while the previous result differs
from the current one and fewer than maxIterations substitutions have run.  The
fuel argument is maxIterations minus the iterations already performed. -/
def pass3Loop (ms : List (List Char)) : Nat → List Char → List Char → List Char
  | 0, _, res => res
  | fuel + 1, prev, res =>
    if prev = res then res
    else pass3Loop ms fuel res (pass3Step ms res)

/-- The same loop, also returning how many times the substitution ran. -/
def pass3LoopCount (ms : List (List Char)) :
    Nat → List Char → List Char → List Char × Nat
  | 0, _, res => (res, 0)
  | fuel + 1, prev, res =>
    if prev = res then (res, 0)
    else
      let pr := pass3LoopCount ms fuel res (pass3Step ms res)
      (pr.1, pr.2 + 1)

/-- The maxIterations constant of removeConsoleLogs. -/
def maxIterations : Nat := 5

/-- The three-newline replacement of the blank-line pattern. -/
def threeNewlines : List Char := '\n' :: '\n' :: '\n' :: []

/-- removeConsoleLogs from src/extension.ts on a character list: the five
statement patterns in order (pattern 3 inside its bounded fixpoint loop with
prev initialized to the empty string), then the blank-line collapse and the
trailing-whitespace strip. -/
def removeL (ms : List (List Char)) (content : List Char) : List Char :=
  let r1 := replaceAll (singleLinePattern ms) (fun _ => []) content
  let r2 := replaceAll (multiLinePattern ms) (fun _ => []) r1
  let r3 := pass3Loop ms maxIterations [] r2
  let r4 := replaceAll (commentedPattern ms) (fun _ => []) r3
  let r5 := replaceAll (blockCommentPattern ms) (fun _ => []) r4
  let r6 := replaceAll blankLinePattern (fun _ => threeNewlines) r5
  replaceAll trailingWsPattern (fun _ => []) r6

/-- removeConsoleLogs on strings, parametrized by the configured method
names. -/
def removeConsoleLogs (methods : List String) (content : String) : String :=
  String.mk (removeL (methods.map String.data) content.data)

/-- countConsoleLogs from src/extension.ts on a character list: the number of
matches of the detector pattern. -/
def countL (ms : List (List Char)) (content : List Char) : Nat :=
  countMatches (detPat ms) content

/-- countConsoleLogs on strings, parametrized by the configured method
names. -/
def countConsoleLogs (methods : List String) (content : String) : Nat :=
  countL (methods.map String.data) content.data

/-- The final two normalization substitutions of removeConsoleLogs in
isolation: collapse runs of four whitespace-separated newlines to three, then
erase whitespace-only line bodies. -/
def blankNormalizeL (l : List Char) : List Char :=
  replaceAll trailingWsPattern (fun _ => [])
    (replaceAll blankLinePattern (fun _ => threeNewlines) l)

/-- blankNormalizeL on strings. -/
def blankNormalize (s : String) : String :=
  String.mk (blankNormalizeL s.data)

/-- Split a character list into lines at newline characters (used only to
state claims about blank lines). -/
def linesOf : List Char → List (List Char)
  | [] => [[]]
  | c :: t =>
    if c = '\n' then [] :: linesOf t
    else
      match linesOf t with
      | [] => [c :: []]
      | ln :: rest => (c :: ln) :: rest

/-- A blank (or whitespace-only) line, in the sense of the specification. -/
def blankL (ln : List Char) : Bool :=
  ln.all (fun c => c = ' ' || c = '\t')

/-- Longest run of consecutive blank lines. -/
def maxRunAux : List (List Char) → Nat → Nat → Nat
  | [], cur, best => max cur best
  | ln :: t, cur, best =>
    if blankL ln then maxRunAux t (cur + 1) (max (cur + 1) best)
    else maxRunAux t 0 best

/-- Modelled from the spec: the length of the longest run of consecutive blank
(or whitespace-only) lines of a text, used to state the blank-line claims. -/
def maxBlankRun (s : String) : Nat :=
  maxRunAux (linesOf s.data) 0 0

/-- The example text of the single-line removal claim. -/
def exStatement : String := "const a = 1;\nconsole.log(a);\nconst b = 2;"

/-- The example text of the commented-line claim, built character by character
because it contains single quotes. -/
def exCommented : String :=
  String.mk ("// console.log(".data ++ sq :: 'x' :: sq :: []
    ++ ");\nconst a = 1;".data)

/-- The example text of the multi-line detection claim. -/
def exMultiLine : String :=
  String.mk ("console.log(\n  ".data ++ sq :: []
    ++ "multi".data ++ sq :: [] ++ ",\n  ".data ++ sq :: []
    ++ "line".data ++ sq :: [] ++ "\n);".data)

/-- A text on which the remover is not idempotent: the block-comment pass
splices the surrounding fragments into a brand-new console call. -/
def exSplice : String := "conso/* console.log(; */le.log(y)"

/-- The least number of characters any match of a regex must consume. -/
def minLen : Regex → Nat
  | .eps => 0
  | .lit _ => 1
  | .cls _ => 1
  | .seq r1 r2 => minLen r1 + minLen r2
  | .alt r1 r2 => min (minLen r1) (minLen r2)
  | .opt _ => 0
  | .star _ => 0
  | .starL _ => 0
  | .bol => 0
  | .eol => 0

/-- Declarative match relation: the regex can take the state (previous
character, remaining input) to the given ending state.  Quantifier iterations
must consume at least one character, mirroring the empty-iteration guard. -/
inductive Matches : Regex → Option Char → List Char → Option Char → List Char → Prop
  | eps {p rest} : Matches .eps p rest p rest
  | lit {c p rest} : Matches (.lit c) p (c :: rest) (some c) rest
  | cls {cc c p rest} (h : cc.mem c = true) :
      Matches (.cls cc) p (c :: rest) (some c) rest
  | seq {r1 r2 p rest q mid q2 out} (h1 : Matches r1 p rest q mid)
      (h2 : Matches r2 q mid q2 out) : Matches (.seq r1 r2) p rest q2 out
  | altL {r1 r2 p rest q out} (h : Matches r1 p rest q out) :
      Matches (.alt r1 r2) p rest q out
  | altR {r1 r2 p rest q out} (h : Matches r2 p rest q out) :
      Matches (.alt r1 r2) p rest q out
  | optS {r p rest q out} (h : Matches r p rest q out) :
      Matches (.opt r) p rest q out
  | optN {r p rest} : Matches (.opt r) p rest p rest
  | starN {r p rest} : Matches (.star r) p rest p rest
  | starM {r p rest q mid q2 out} (h1 : Matches r p rest q mid)
      (hlt : mid.length < rest.length) (h2 : Matches (.star r) q mid q2 out) :
      Matches (.star r) p rest q2 out
  | starLN {r p rest} : Matches (.starL r) p rest p rest
  | starLM {r p rest q mid q2 out} (h1 : Matches r p rest q mid)
      (hlt : mid.length < rest.length) (h2 : Matches (.starL r) q mid q2 out) :
      Matches (.starL r) p rest q2 out
  | bol {p rest} (h : bolHolds p = true) : Matches .bol p rest p rest
  | eol {p rest} (h : eolHolds rest = true) : Matches .eol p rest p rest

/-- Reachability of one matcher state from another: the remaining input is the
same, or a suffix whose preceding character is recorded as previous. -/
def ReachS (p : Option Char) (rest : List Char)
    (q : Option Char) (mid : List Char) : Prop :=
  (q = p ∧ mid = rest) ∨ ∃ gap c, rest = gap ++ c :: mid ∧ q = some c

/-- No state of a text matches the detector pattern. -/
def NoDetMatch (ms : List (List Char)) (l : List Char) : Prop :=
  ∀ q mid, ReachS none l q mid → matchAt (detPat ms) q mid = none

/-- A pattern whose every match contains a match of the detector pattern at a
reachable state. -/
def DetThrough (ms : List (List Char)) (r : Regex) : Prop :=
  ∀ p rest q mid, Matches r p rest q mid →
    ∃ q2 mid2 q3 mid3, ReachS p rest q2 mid2 ∧ Matches (detPat ms) q2 mid2 q3 mid3

/-! ### Basic properties of the match relation -/

theorem Matches.len_le {r p rest q mid} (h : Matches r p rest q mid) :
    mid.length ≤ rest.length := by
  induction h with
  | eps => exact Nat.le_refl _
  | lit => exact Nat.le_succ _
  | cls _ => exact Nat.le_succ _
  | seq _ _ ih1 ih2 => exact Nat.le_trans ih2 ih1
  | altL _ ih => exact ih
  | altR _ ih => exact ih
  | optS _ ih => exact ih
  | optN => exact Nat.le_refl _
  | starN => exact Nat.le_refl _
  | starM _ hlt _ _ ih2 => omega
  | starLN => exact Nat.le_refl _
  | starLM _ hlt _ _ ih2 => omega
  | bol _ => exact Nat.le_refl _
  | eol _ => exact Nat.le_refl _

theorem Matches.minLen_le {r p rest q mid} (h : Matches r p rest q mid) :
    minLen r + mid.length ≤ rest.length := by
  induction h with
  | eps => simp [minLen]
  | lit => simp only [minLen, List.length_cons]; omega
  | cls _ => simp only [minLen, List.length_cons]; omega
  | seq h1 h2 ih1 ih2 => simp only [minLen]; omega
  | @altL r1 r2 p2 rest2 q2 out2 h ih =>
    have := Nat.min_le_left (minLen r1) (minLen r2)
    simp only [minLen]; omega
  | @altR r1 r2 p2 rest2 q2 out2 h ih =>
    have := Nat.min_le_right (minLen r1) (minLen r2)
    simp only [minLen]; omega
  | optS h ih => simp only [minLen]; omega
  | optN => simp [minLen]
  | starN => simp [minLen]
  | starM h1 hlt h2 ih1 ih2 => simp only [minLen] at ih2 ⊢; omega
  | starLN => simp [minLen]
  | starLM h1 hlt h2 ih1 ih2 => simp only [minLen] at ih2 ⊢; omega
  | bol _ => simp [minLen]
  | eol _ => simp [minLen]

theorem ReachS.refl (p : Option Char) (rest : List Char) : ReachS p rest p rest :=
  Or.inl ⟨rfl, rfl⟩

theorem ReachS.trans {p rest q mid q2 out} (h1 : ReachS p rest q mid)
    (h2 : ReachS q mid q2 out) : ReachS p rest q2 out := by
  rcases h2 with ⟨rfl, rfl⟩ | ⟨gap2, c2, rfl, rfl⟩
  · exact h1
  · rcases h1 with ⟨rfl, rfl⟩ | ⟨gap, c, rfl, rfl⟩
    · exact Or.inr ⟨gap2, c2, rfl, rfl⟩
    · exact Or.inr ⟨gap ++ c :: gap2, c2, by simp, rfl⟩

theorem ReachS.cons {c t q mid} (p : Option Char) (h : ReachS (some c) t q mid) :
    ReachS p (c :: t) q mid := by
  rcases h with ⟨rfl, rfl⟩ | ⟨gap, d, rfl, rfl⟩
  · exact Or.inr ⟨[], c, rfl, rfl⟩
  · exact Or.inr ⟨c :: gap, d, rfl, rfl⟩

theorem Matches.reach {r p rest q mid} (h : Matches r p rest q mid) :
    ReachS p rest q mid := by
  induction h with
  | eps => exact ReachS.refl _ _
  | lit => exact Or.inr ⟨[], _, rfl, rfl⟩
  | cls _ => exact Or.inr ⟨[], _, rfl, rfl⟩
  | seq _ _ ih1 ih2 => exact ih1.trans ih2
  | altL _ ih => exact ih
  | altR _ ih => exact ih
  | optS _ ih => exact ih
  | optN => exact ReachS.refl _ _
  | starN => exact ReachS.refl _ _
  | starM _ _ _ ih1 ih2 => exact ih1.trans ih2
  | starLN => exact ReachS.refl _ _
  | starLM _ _ _ ih1 ih2 => exact ih1.trans ih2
  | bol _ => exact ReachS.refl _ _
  | eol _ => exact ReachS.refl _ _

/-! ### Soundness of the matcher -/

theorem matGo_sound
    (later : Regex → Option Char → List Char → MatchK →
      Option (Option Char × List Char))
    (hl : ∀ r p rest k res, later r p rest k = some res →
      ∃ q mid, Matches r p rest q mid ∧ k q mid = some res) :
    ∀ r p rest k res, matGo later r p rest k = some res →
      ∃ q mid, Matches r p rest q mid ∧ k q mid = some res := by
  intro r
  induction r with
  | eps =>
    intro p rest k res h
    exact ⟨p, rest, .eps, h⟩
  | lit c =>
    intro p rest k res h
    match rest with
    | [] => exact absurd h (by simp [matGo])
    | d :: rest2 =>
      by_cases hd : d = c
      · subst hd
        simp only [matGo, if_pos rfl] at h
        exact ⟨some d, rest2, .lit, h⟩
      · simp [matGo, hd] at h
  | cls cc =>
    intro p rest k res h
    match rest with
    | [] => exact absurd h (by simp [matGo])
    | d :: rest2 =>
      by_cases hd : cc.mem d
      · simp only [matGo, if_pos hd] at h
        exact ⟨some d, rest2, .cls hd, h⟩
      · simp [matGo, hd] at h
  | seq r1 r2 ih1 ih2 =>
    intro p rest k res h
    simp only [matGo] at h
    obtain ⟨q, mid, m1, h2⟩ := ih1 _ _ _ _ h
    obtain ⟨q2, out, m2, hk⟩ := ih2 _ _ _ _ h2
    exact ⟨q2, out, .seq m1 m2, hk⟩
  | alt r1 r2 ih1 ih2 =>
    intro p rest k res h
    simp only [matGo] at h
    cases hb : matGo later r1 p rest k with
    | some val =>
      rw [hb] at h
      obtain ⟨q, mid, m1, hk⟩ := ih1 _ _ _ _ hb
      cases h
      exact ⟨q, mid, .altL m1, hk⟩
    | none =>
      rw [hb] at h
      obtain ⟨q, mid, m2, hk⟩ := ih2 _ _ _ _ h
      exact ⟨q, mid, .altR m2, hk⟩
  | opt r ih =>
    intro p rest k res h
    simp only [matGo] at h
    cases hb : matGo later r p rest k with
    | some val =>
      rw [hb] at h
      obtain ⟨q, mid, m1, hk⟩ := ih _ _ _ _ hb
      cases h
      exact ⟨q, mid, .optS m1, hk⟩
    | none =>
      rw [hb] at h
      exact ⟨p, rest, .optN, h⟩
  | star r ih =>
    intro p rest k res h
    simp only [matGo] at h
    cases hb : matGo later r p rest
        (fun q mid =>
          if mid.length < rest.length then later (.star r) q mid k else none) with
    | some val =>
      rw [hb] at h
      obtain ⟨q, mid, m1, hk1⟩ := ih _ _ _ _ hb
      by_cases hlt : mid.length < rest.length
      · rw [if_pos hlt] at hk1
        obtain ⟨q2, out, m2, hk⟩ := hl _ _ _ _ _ hk1
        cases h
        exact ⟨q2, out, .starM m1 hlt m2, hk⟩
      · rw [if_neg hlt] at hk1
        exact absurd hk1 (by simp)
    | none =>
      rw [hb] at h
      exact ⟨p, rest, .starN, h⟩
  | starL r ih =>
    intro p rest k res h
    simp only [matGo] at h
    cases hk0 : k p rest with
    | some val =>
      rw [hk0] at h
      cases h
      exact ⟨p, rest, .starLN, hk0⟩
    | none =>
      rw [hk0] at h
      obtain ⟨q, mid, m1, hk1⟩ := ih _ _ _ _ h
      by_cases hlt : mid.length < rest.length
      · rw [if_pos hlt] at hk1
        obtain ⟨q2, out, m2, hk⟩ := hl _ _ _ _ _ hk1
        exact ⟨q2, out, .starLM m1 hlt m2, hk⟩
      · rw [if_neg hlt] at hk1
        exact absurd hk1 (by simp)
  | bol =>
    intro p rest k res h
    by_cases hb : bolHolds p
    · simp only [matGo, if_pos hb] at h
      exact ⟨p, rest, .bol hb, h⟩
    · simp [matGo, hb] at h
  | eol =>
    intro p rest k res h
    by_cases hb : eolHolds rest
    · simp only [matGo, if_pos hb] at h
      exact ⟨p, rest, .eol hb, h⟩
    · simp [matGo, hb] at h

theorem mat_sound :
    ∀ f r p rest k res, mat f r p rest k = some res →
      ∃ q mid, Matches r p rest q mid ∧ k q mid = some res := by
  intro f
  induction f with
  | zero =>
    exact matGo_sound _ (fun r p rest k res h => absurd h (by simp))
  | succ f ih =>
    exact matGo_sound _ ih

theorem matchAt_sound {r p rest q mid}
    (h : matchAt r p rest = some (q, mid)) : Matches r p rest q mid := by
  obtain ⟨q2, mid2, m, hk⟩ := mat_sound _ _ _ _ _ _ h
  obtain ⟨rfl, rfl⟩ : q2 = q ∧ mid2 = mid := by
    constructor <;> cases hk <;> rfl
  exact m

/-! ### Unfolding equations of the matcher at positive fuel -/

theorem mat_eq_matGo (f : Nat) :
    mat (f + 1) = matGo (mat f) := rfl

/-! ### Completeness of the matcher -/

theorem mat_complete {r p rest q mid} (h : Matches r p rest q mid) :
    ∀ f k, rest.length < f → (k q mid).isSome → (mat f r p rest k).isSome := by
  induction h with
  | @eps p rest =>
    intro f k hf hk
    obtain ⟨f2, rfl⟩ : ∃ f2, f = f2 + 1 := ⟨f - 1, by omega⟩
    exact hk
  | @lit c p rest =>
    intro f k hf hk
    obtain ⟨f2, rfl⟩ : ∃ f2, f = f2 + 1 := ⟨f - 1, by omega⟩
    simpa [mat_eq_matGo, matGo] using hk
  | @cls cc c p rest hmem =>
    intro f k hf hk
    obtain ⟨f2, rfl⟩ : ∃ f2, f = f2 + 1 := ⟨f - 1, by omega⟩
    simpa [mat_eq_matGo, matGo, hmem] using hk
  | @seq r1 r2 p rest q0 mid0 q2 out h1 h2 ih1 ih2 =>
    intro f k hf hk
    obtain ⟨f2, rfl⟩ : ∃ f2, f = f2 + 1 := ⟨f - 1, by omega⟩
    rw [mat_eq_matGo]
    show (matGo (mat f2) r1 p rest (fun q mid => matGo (mat f2) r2 q mid k)).isSome
    have hmid : mid0.length < f2 + 1 := Nat.lt_of_le_of_lt h1.len_le hf
    have h2s : ((fun q mid => matGo (mat f2) r2 q mid k) q0 mid0).isSome := by
      have := ih2 (f2 + 1) k hmid hk
      simpa [mat_eq_matGo] using this
    have := ih1 (f2 + 1) (fun q mid => matGo (mat f2) r2 q mid k) hf h2s
    simpa [mat_eq_matGo] using this
  | @altL r1 r2 p rest q0 out h ih =>
    intro f k hf hk
    obtain ⟨f2, rfl⟩ : ∃ f2, f = f2 + 1 := ⟨f - 1, by omega⟩
    have := ih (f2 + 1) k hf hk
    rw [mat_eq_matGo] at this ⊢
    obtain ⟨val, hv⟩ := Option.isSome_iff_exists.mp this
    simp [matGo, hv]
  | @altR r1 r2 p rest q0 out h ih =>
    intro f k hf hk
    obtain ⟨f2, rfl⟩ : ∃ f2, f = f2 + 1 := ⟨f - 1, by omega⟩
    have h2 := ih (f2 + 1) k hf hk
    rw [mat_eq_matGo] at h2 ⊢
    show (matGo (mat f2) (.alt r1 r2) p rest k).isSome
    simp only [matGo]
    cases hb : matGo (mat f2) r1 p rest k with
    | some val => simp
    | none => exact h2
  | @optS r p rest q0 out h ih =>
    intro f k hf hk
    obtain ⟨f2, rfl⟩ : ∃ f2, f = f2 + 1 := ⟨f - 1, by omega⟩
    have := ih (f2 + 1) k hf hk
    rw [mat_eq_matGo] at this ⊢
    obtain ⟨val, hv⟩ := Option.isSome_iff_exists.mp this
    simp [matGo, hv]
  | @optN r p rest =>
    intro f k hf hk
    obtain ⟨f2, rfl⟩ : ∃ f2, f = f2 + 1 := ⟨f - 1, by omega⟩
    rw [mat_eq_matGo]
    simp only [matGo]
    cases hb : matGo (mat f2) r p rest k with
    | some val => simp
    | none => exact hk
  | @starN r p rest =>
    intro f k hf hk
    obtain ⟨f2, rfl⟩ : ∃ f2, f = f2 + 1 := ⟨f - 1, by omega⟩
    rw [mat_eq_matGo]
    simp only [matGo]
    cases hb : matGo (mat f2) r p rest
        (fun q mid =>
          if mid.length < rest.length then mat f2 (.star r) q mid k else none) with
    | some val => simp
    | none => exact hk
  | @starM r p rest q0 mid0 q2 out h1 hlt h2 ih1 ih2 =>
    intro f k hf hk
    obtain ⟨f2, rfl⟩ : ∃ f2, f = f2 + 1 := ⟨f - 1, by omega⟩
    rw [mat_eq_matGo]
    simp only [matGo]
    have hmid : mid0.length < f2 := by
      have := h1.len_le
      omega
    have hinner : ((fun q mid =>
        if mid.length < rest.length then mat f2 (.star r) q mid k else none)
          q0 mid0).isSome := by
      simp only [if_pos hlt]
      exact ih2 f2 k hmid hk
    have hbody := ih1 (f2 + 1)
      (fun q mid =>
        if mid.length < rest.length then mat f2 (.star r) q mid k else none)
      hf hinner
    rw [mat_eq_matGo] at hbody
    obtain ⟨val, hv⟩ := Option.isSome_iff_exists.mp hbody
    simp [hv]
  | @starLN r p rest =>
    intro f k hf hk
    obtain ⟨f2, rfl⟩ : ∃ f2, f = f2 + 1 := ⟨f - 1, by omega⟩
    rw [mat_eq_matGo]
    simp only [matGo]
    obtain ⟨val, hv⟩ := Option.isSome_iff_exists.mp hk
    simp [hv]
  | @starLM r p rest q0 mid0 q2 out h1 hlt h2 ih1 ih2 =>
    intro f k hf hk
    obtain ⟨f2, rfl⟩ : ∃ f2, f = f2 + 1 := ⟨f - 1, by omega⟩
    rw [mat_eq_matGo]
    simp only [matGo]
    cases hk0 : k p rest with
    | some val => simp
    | none =>
      have hmid : mid0.length < f2 := by
        have := h1.len_le
        omega
      have hinner : ((fun q mid =>
          if mid.length < rest.length then mat f2 (.starL r) q mid k else none)
            q0 mid0).isSome := by
        simp only [if_pos hlt]
        exact ih2 f2 k hmid hk
      have hbody := ih1 (f2 + 1)
        (fun q mid =>
          if mid.length < rest.length then mat f2 (.starL r) q mid k else none)
        hf hinner
      rw [mat_eq_matGo] at hbody
      exact hbody
  | @bol p rest hb =>
    intro f k hf hk
    obtain ⟨f2, rfl⟩ : ∃ f2, f = f2 + 1 := ⟨f - 1, by omega⟩
    simpa [mat_eq_matGo, matGo, hb] using hk
  | @eol p rest hb =>
    intro f k hf hk
    obtain ⟨f2, rfl⟩ : ∃ f2, f = f2 + 1 := ⟨f - 1, by omega⟩
    simpa [mat_eq_matGo, matGo, hb] using hk

theorem matchAt_isSome_of {r p rest q mid} (h : Matches r p rest q mid) :
    (matchAt r p rest).isSome :=
  mat_complete h (rest.length + 1) _ (Nat.lt_succ_self _) (by simp)

theorem not_matches_of_matchAt_none {r p rest} (h : matchAt r p rest = none)
    {q mid} (hm : Matches r p rest q mid) : False := by
  have := matchAt_isSome_of hm
  rw [h] at this
  exact absurd this (by simp)

/-! ### The counting scan -/

theorem cntAux_zero {r : Regex} :
    ∀ f p rest, rest.length < f → cntAux r f p rest = 0 →
      ∀ q mid, ReachS p rest q mid → matchAt r q mid = none := by
  intro f
  induction f with
  | zero => intro p rest hf; omega
  | succ f ih =>
    intro p rest hf h q mid hre
    cases hm : matchAt r p rest with
    | some pr =>
      exfalso
      rcases pr with ⟨q2, mid2⟩
      simp only [cntAux, hm] at h
      by_cases hlt : mid2.length < rest.length
      · rw [if_pos hlt] at h; omega
      · rw [if_neg hlt] at h
        cases rest with
        | nil => simp at h
        | cons c t => simp at h
    | none =>
      rcases hre with ⟨rfl, rfl⟩ | ⟨gap, c, heq, rfl⟩
      · exact hm
      · cases rest with
        | nil => exact absurd heq (by cases gap <;> simp)
        | cons c0 t =>
          simp only [cntAux, hm] at h
          have ht : t.length < f := by
            simp only [List.length_cons] at hf; omega
          cases gap with
          | nil =>
            simp only [List.nil_append, List.cons.injEq] at heq
            obtain ⟨rfl, rfl⟩ := heq
            exact ih (some c0) t ht h _ _ (Or.inl ⟨rfl, rfl⟩)
          | cons g0 gr =>
            simp only [List.cons_append, List.cons.injEq] at heq
            obtain ⟨rfl, heq2⟩ := heq
            exact ih (some c0) t ht h _ _ (Or.inr ⟨gr, c, heq2, rfl⟩)

theorem cntAux_of_none {r : Regex} :
    ∀ f p rest, (∀ q mid, ReachS p rest q mid → matchAt r q mid = none) →
      cntAux r f p rest = 0 := by
  intro f
  induction f with
  | zero => intro p rest _; rfl
  | succ f ih =>
    intro p rest h
    have hm : matchAt r p rest = none := h p rest (ReachS.refl _ _)
    simp only [cntAux, hm]
    cases rest with
    | nil => rfl
    | cons c t => exact ih (some c) t (fun q mid hre => hre.cons p |> h q mid)

theorem countL_eq_zero_iff {ms : List (List Char)} {l : List Char} :
    countL ms l = 0 ↔ NoDetMatch ms l := by
  constructor
  · intro h q mid hre
    exact cntAux_zero (l.length + 1) none l (Nat.lt_succ_self _) h q mid hre
  · intro h
    exact cntAux_of_none _ none l h

/-! ### The replacement scan on texts without a match -/

theorem repAux_id {r : Regex} {rep : List Char → List Char} :
    ∀ f p rest, rest.length < f →
      (∀ q mid, ReachS p rest q mid → matchAt r q mid = none) →
      repAux r rep f p rest = rest := by
  intro f
  induction f with
  | zero => intro p rest hf; omega
  | succ f ih =>
    intro p rest hf h
    have hm : matchAt r p rest = none := h p rest (ReachS.refl _ _)
    cases rest with
    | nil => simp [repAux, hm]
    | cons c t =>
      have ht : t.length < f := by
        simp only [List.length_cons] at hf; omega
      simp only [repAux, hm]
      rw [ih (some c) t ht (fun q mid hre => hre.cons p |> h q mid)]

theorem replaceAll_id {r : Regex} {rep : List Char → List Char} {l : List Char}
    (h : ∀ q mid, ReachS none l q mid → matchAt r q mid = none) :
    replaceAll r rep l = l :=
  repAux_id _ none l (Nat.lt_succ_self _) h

/-! ### Every statement pattern contains the detector pattern -/

theorem detThrough_singleLine (ms : List (List Char)) :
    DetThrough ms (singleLinePattern ms) := by
  intro p rest q mid h
  cases h with
  | seq hb hrest =>
    cases hrest with
    | seq hst hrest2 =>
      cases hrest2 with
      | seq hdet htail =>
        exact ⟨_, _, _, _, hb.reach.trans hst.reach, hdet⟩

theorem detThrough_multiLine (ms : List (List Char)) :
    DetThrough ms (multiLinePattern ms) := by
  intro p rest q mid h
  cases h with
  | seq hb hrest =>
    cases hrest with
    | seq hst hrest2 =>
      cases hrest2 with
      | seq hdet htail =>
        exact ⟨_, _, _, _, hb.reach.trans hst.reach, hdet⟩

theorem detThrough_complex (ms : List (List Char)) :
    DetThrough ms (complexPattern ms) := by
  intro p rest q mid h
  cases h with
  | seq hdet htail => exact ⟨_, _, _, _, ReachS.refl _ _, hdet⟩

theorem detThrough_commented (ms : List (List Char)) :
    DetThrough ms (commentedPattern ms) := by
  intro p rest q mid h
  cases h with
  | seq hb hrest =>
    cases hrest with
    | seq hst hrest2 =>
      cases hrest2 with
      | seq hs1 hrest3 =>
        cases hrest3 with
        | seq hs2 hrest4 =>
          cases hrest4 with
          | seq hws hrest5 =>
            cases hrest5 with
            | seq hdet htail =>
              exact ⟨_, _, _, _,
                (((hb.reach.trans hst.reach).trans hs1.reach).trans
                  hs2.reach).trans hws.reach, hdet⟩

theorem detThrough_blockComment (ms : List (List Char)) :
    DetThrough ms (blockCommentPattern ms) := by
  intro p rest q mid h
  cases h with
  | seq hs1 hrest =>
    cases hrest with
    | seq hs2 hrest2 =>
      cases hrest2 with
      | seq hlazy hrest3 =>
        cases hrest3 with
        | seq hdet htail =>
          exact ⟨_, _, _, _,
            (hs1.reach.trans hs2.reach).trans hlazy.reach, hdet⟩

theorem replaceAll_id_of_noDet {ms : List (List Char)} {r : Regex}
    (hth : DetThrough ms r) {l : List Char} (hnd : NoDetMatch ms l)
    (rep : List Char → List Char) : replaceAll r rep l = l := by
  apply replaceAll_id
  intro q mid hre
  cases hm : matchAt r q mid with
  | none => rfl
  | some pr =>
    exfalso
    rcases pr with ⟨q2, mid2⟩
    have hmat := matchAt_sound hm
    obtain ⟨q3, mid3, q4, mid4, hre2, hdet⟩ := hth _ _ _ _ hmat
    have hstate : ReachS none l q3 mid3 := hre.trans hre2
    have hnone := hnd q3 mid3 hstate
    exact not_matches_of_matchAt_none hnone hdet

/-! ### The pattern 3 loop on texts without a match -/

theorem pass3Step_id {ms : List (List Char)} {l : List Char}
    (hnd : NoDetMatch ms l) : pass3Step ms l = l :=
  replaceAll_id_of_noDet (detThrough_complex ms) hnd _

theorem pass3Loop_of_step_id {ms : List (List Char)} {l : List Char}
    (hstep : pass3Step ms l = l) :
    ∀ fuel prev, pass3Loop ms fuel prev l = l := by
  intro fuel
  induction fuel with
  | zero => intro prev; rfl
  | succ f ih =>
    intro prev
    by_cases hp : prev = l
    · simp [pass3Loop, hp]
    · simp only [pass3Loop, if_neg hp, hstep]
      exact ih l

/-- If the detector finds nothing, the five statement substitutions leave the
text unchanged and removeConsoleLogs reduces to the final two normalization
substitutions. -/
theorem removeL_eq_normalize {ms : List (List Char)} {l : List Char}
    (h : countL ms l = 0) : removeL ms l = blankNormalizeL l := by
  have hnd : NoDetMatch ms l := countL_eq_zero_iff.mp h
  have e1 := replaceAll_id_of_noDet (detThrough_singleLine ms) hnd
    (fun _ => ([] : List Char))
  have e2 := replaceAll_id_of_noDet (detThrough_multiLine ms) hnd
    (fun _ => ([] : List Char))
  have e3 := pass3Loop_of_step_id (pass3Step_id hnd) maxIterations []
  have e4 := replaceAll_id_of_noDet (detThrough_commented ms) hnd
    (fun _ => ([] : List Char))
  have e5 := replaceAll_id_of_noDet (detThrough_blockComment ms) hnd
    (fun _ => ([] : List Char))
  simp only [removeL, e1, e2, e3, e4, e5]
  rfl

/-! ### Length bounds of the replacement scan -/

theorem take_of_append {gap mid : List Char} {c : Char} :
    (gap ++ c :: mid).take ((gap ++ c :: mid).length - mid.length) = gap ++ [c] := by
  have h1 : gap ++ c :: mid = (gap ++ [c]) ++ mid := by simp
  have h2 : (gap ++ c :: mid).length - mid.length = (gap ++ [c]).length := by
    simp only [List.length_append, List.length_cons, List.length_nil]
    omega
  rw [h2, h1, List.take_left]

theorem repAux_len {r : Regex} {rep : List Char → List Char} :
    ∀ f p rest, rest.length < f →
      (∀ q mid q2 mid2, ReachS p rest q mid →
        matchAt r q mid = some (q2, mid2) →
        (rep (mid.take (mid.length - mid2.length))).length ≤
          mid.length - mid2.length) →
      (repAux r rep f p rest).length ≤ rest.length := by
  intro f
  induction f with
  | zero => intro p rest hf; omega
  | succ f ih =>
    intro p rest hf h
    cases hm : matchAt r p rest with
    | none =>
      cases rest with
      | nil => simp [repAux, hm]
      | cons c t =>
        simp only [repAux, hm, List.length_cons]
        have ht : t.length < f := by
          simp only [List.length_cons] at hf; omega
        have := ih (some c) t ht
          (fun q mid q2 mid2 hre => h q mid q2 mid2 (hre.cons p))
        omega
    | some pr =>
      rcases pr with ⟨q2, mid2⟩
      have hrep := h p rest q2 mid2 (ReachS.refl _ _) hm
      have hlen := (matchAt_sound hm).len_le
      by_cases hlt : mid2.length < rest.length
      · simp only [repAux, hm, if_pos hlt, List.length_append]
        have hm2 : mid2.length < f := by omega
        have hreach : ReachS p rest q2 mid2 := (matchAt_sound hm).reach
        have hrec := ih q2 mid2 hm2
          (fun q3 mid3 q4 mid4 hre => h q3 mid3 q4 mid4 (hreach.trans hre))
        omega
      · have hz : rest.length - mid2.length = 0 := by omega
        rw [hz, List.take_zero] at hrep
        cases rest with
        | nil =>
          simp only [repAux, hm, if_neg hlt]
          simpa using hrep
        | cons c t =>
          simp only [List.length_cons] at hlt hf
          simp only [repAux, hm, List.length_cons, if_neg hlt,
            List.length_append]
          have ht : t.length < f := by omega
          have hrec := ih (some c) t ht
            (fun q mid q2b mid2b hre => h q mid q2b mid2b (hre.cons p))
          omega

theorem replaceAll_len_erase {r : Regex} {l : List Char} :
    (replaceAll r (fun _ => []) l).length ≤ l.length :=
  repAux_len _ none l (Nat.lt_succ_self _) (fun _ _ _ _ _ _ => by simp)

theorem complexCallback_len (m : List Char) :
    (complexCallback m).length ≤ m.length := by
  unfold complexCallback
  split
  · simp
  · exact Nat.le_refl _

theorem pass3Step_len {ms : List (List Char)} {l : List Char} :
    (pass3Step ms l).length ≤ l.length := by
  apply repAux_len _ none l (Nat.lt_succ_self _)
  intro q mid q2 mid2 hre hm
  calc (complexCallback (mid.take (mid.length - mid2.length))).length
      ≤ (mid.take (mid.length - mid2.length)).length := complexCallback_len _
    _ ≤ mid.length - mid2.length := by
        rw [List.length_take]
        omega

theorem minLen_blankLine : minLen blankLinePattern = 4 := rfl

theorem replaceAll_len_blank {l : List Char} :
    (replaceAll blankLinePattern (fun _ => threeNewlines) l).length ≤ l.length := by
  apply repAux_len _ none l (Nat.lt_succ_self _)
  intro q mid q2 mid2 hre hm
  have hmin := (matchAt_sound hm).minLen_le
  rw [minLen_blankLine] at hmin
  show (threeNewlines).length ≤ mid.length - mid2.length
  simp only [threeNewlines, List.length_cons, List.length_nil]
  omega

theorem pass3Loop_len {ms : List (List Char)} :
    ∀ fuel prev l, (pass3Loop ms fuel prev l).length ≤ l.length := by
  intro fuel
  induction fuel with
  | zero => intro prev l; exact Nat.le_refl _
  | succ f ih =>
    intro prev l
    by_cases hp : prev = l
    · simp [pass3Loop, hp]
    · simp only [pass3Loop, if_neg hp]
      exact Nat.le_trans (ih l (pass3Step ms l)) pass3Step_len

theorem removeL_len {ms : List (List Char)} {l : List Char} :
    (removeL ms l).length ≤ l.length := by
  simp only [removeL]
  refine Nat.le_trans replaceAll_len_erase (Nat.le_trans replaceAll_len_blank
    (Nat.le_trans replaceAll_len_erase (Nat.le_trans replaceAll_len_erase
      (Nat.le_trans (pass3Loop_len _ _ _) (Nat.le_trans replaceAll_len_erase
        replaceAll_len_erase)))))

/-! ### The decomposition of the replacement scan into gaps and matches -/

theorem joinP_consGap (rep : List Char → List Char) (c : Char)
    (pr : List (List Char × List Char) × List Char) :
    joinP rep (consGap c pr) = c :: joinP rep pr := by
  rcases pr with ⟨ps, tg⟩
  cases ps with
  | nil => rfl
  | cons gm ps2 =>
    rcases gm with ⟨g, m⟩
    simp [consGap, joinP]

theorem joinP_cons (rep : List Char → List Char) (g m : List Char)
    (ps : List (List Char × List Char)) (tg : List Char) :
    joinP rep ((g, m) :: ps, tg) = g ++ rep m ++ joinP rep (ps, tg) := rfl

theorem partsAux_assemble {r : Regex} :
    ∀ f p rest, rest.length < f →
      joinP (fun m => m) (partsAux r f p rest) = rest := by
  intro f
  induction f with
  | zero => intro p rest hf; omega
  | succ f ih =>
    intro p rest hf
    cases hm : matchAt r p rest with
    | none =>
      cases rest with
      | nil => simp [partsAux, hm, joinP]
      | cons c t =>
        have ht : t.length < f := by
          simp only [List.length_cons] at hf; omega
        simp only [partsAux, hm]
        rw [joinP_consGap, ih (some c) t ht]
    | some pr =>
      rcases pr with ⟨q2, mid2⟩
      have hlen := (matchAt_sound hm).len_le
      by_cases hlt : mid2.length < rest.length
      · rcases (matchAt_sound hm).reach with ⟨rfl, rfl⟩ | ⟨gap, c, heq, rfl⟩
        · omega
        · have hm2 : mid2.length < f := by omega
          simp only [partsAux, hm, if_pos hlt]
          rw [joinP_cons, Prod.mk.eta, ih (some c) mid2 hm2]
          subst heq
          rw [take_of_append]
          simp
      · cases rest with
        | nil => simp [partsAux, hm, if_neg hlt, joinP]
        | cons c t =>
          have ht : t.length < f := by
            simp only [List.length_cons] at hf; omega
          simp only [partsAux, hm, if_neg hlt]
          rw [joinP_cons, Prod.mk.eta, joinP_consGap, ih (some c) t ht]
          rfl

theorem repAux_eq_joinP {r : Regex} {rep : List Char → List Char} :
    ∀ f p rest, rest.length < f →
      repAux r rep f p rest = joinP rep (partsAux r f p rest) := by
  intro f
  induction f with
  | zero => intro p rest hf; omega
  | succ f ih =>
    intro p rest hf
    cases hm : matchAt r p rest with
    | none =>
      cases rest with
      | nil => simp [repAux, partsAux, hm, joinP]
      | cons c t =>
        have ht : t.length < f := by
          simp only [List.length_cons] at hf; omega
        simp only [repAux, partsAux, hm]
        rw [joinP_consGap, ih (some c) t ht]
    | some pr =>
      rcases pr with ⟨q2, mid2⟩
      by_cases hlt : mid2.length < rest.length
      · have hm2 : mid2.length < f := by
          have := (matchAt_sound hm).len_le
          omega
        simp only [repAux, partsAux, hm, if_pos hlt]
        rw [joinP_cons, Prod.mk.eta, ih q2 mid2 hm2]
        simp
      · cases rest with
        | nil => simp [repAux, partsAux, hm, if_neg hlt, joinP]
        | cons c t =>
          have ht : t.length < f := by
            simp only [List.length_cons] at hf; omega
          simp only [repAux, partsAux, hm, if_neg hlt]
          rw [joinP_cons, Prod.mk.eta, joinP_consGap, ih (some c) t ht]
          simp

theorem complexCallback_eq (m : List Char) :
    complexCallback m =
      if containsChar m lbrace || containsSub functionWord m then m else [] := by
  unfold complexCallback
  by_cases h1 : containsChar m lbrace
  · simp [h1]
  · by_cases h2 : containsSub functionWord m
    · simp [h1, h2]
    · simp [h1, h2]

/-! ### The bounded iteration of the pattern 3 loop -/

theorem matchAt_nil_of_minLen {r : Regex} (h : 1 ≤ minLen r) (p : Option Char) :
    matchAt r p [] = none := by
  cases hm : matchAt r p [] with
  | none => rfl
  | some pr =>
    exfalso
    rcases pr with ⟨q, mid⟩
    have := (matchAt_sound hm).minLen_le
    simp only [List.length_nil] at this
    omega

theorem minLen_complex_pos (ms : List (List Char)) :
    1 ≤ minLen (complexPattern ms) := by
  simp only [complexPattern, detPat, strLit, wsStar, minLen]
  omega

theorem pass3Step_nil (ms : List (List Char)) : pass3Step ms [] = [] := by
  simp [pass3Step, replaceAll, repAux,
    matchAt_nil_of_minLen (minLen_complex_pos ms) none]

theorem pass3LoopCount_le {ms : List (List Char)} :
    ∀ fuel prev res, (pass3LoopCount ms fuel prev res).2 ≤ fuel := by
  intro fuel
  induction fuel with
  | zero => intro prev res; exact Nat.le_refl _
  | succ f ih =>
    intro prev res
    by_cases hp : prev = res
    · simp [pass3LoopCount, hp]
    · simp only [pass3LoopCount, if_neg hp]
      have := ih res (pass3Step ms res)
      omega

theorem pass3LoopCount_stop {ms : List (List Char)} :
    ∀ fuel prev res, (prev = [] ∨ res = pass3Step ms prev) →
      (pass3LoopCount ms fuel prev res).2 = fuel ∨
      pass3Step ms (pass3LoopCount ms fuel prev res).1 =
        (pass3LoopCount ms fuel prev res).1 := by
  intro fuel
  induction fuel with
  | zero => intro prev res _; exact Or.inl rfl
  | succ f ih =>
    intro prev res hinv
    by_cases hp : prev = res
    · right
      simp only [pass3LoopCount, if_pos hp]
      rcases hinv with hnil | hstep
      · rw [hp] at hnil
        rw [hnil]
        exact pass3Step_nil ms
      · rw [hp] at hstep
        exact hstep.symm
    · simp only [pass3LoopCount, if_neg hp]
      rcases ih res (pass3Step ms res) (Or.inr rfl) with hc | hfix
      · left; omega
      · right; exact hfix

theorem pass3LoopCount_fst {ms : List (List Char)} :
    ∀ fuel prev res, (pass3LoopCount ms fuel prev res).1 =
      pass3Loop ms fuel prev res := by
  intro fuel
  induction fuel with
  | zero => intro prev res; rfl
  | succ f ih =>
    intro prev res
    by_cases hp : prev = res
    · simp [pass3LoopCount, pass3Loop, hp]
    · simp only [pass3LoopCount, pass3Loop, if_neg hp]
      exact ih res (pass3Step ms res)

/-! ### The claims -/

/-- C1, counterexample: the remover is not idempotent.  On the text
conso/＊ console.log(; ＊/le.log(y) the block-comment pass splices the pieces
around the comment into the new call console.log(y), which only a second
application removes. -/
theorem c1_counterexample :
    removeConsoleLogs ["log"] (removeConsoleLogs ["log"] exSplice) ≠
      removeConsoleLogs ["log"] exSplice := by decide

/-- C1, amended: applying removeConsoleLogs twice gives the same result as
applying it once whenever the first result contains no detectable console
call and is already blank-line normalized; full idempotence fails (see the
counterexample). -/
theorem c1_remove_idempotent_once_clean (M : List String) (T : String)
    (h1 : countConsoleLogs M (removeConsoleLogs M T) = 0)
    (h2 : blankNormalize (removeConsoleLogs M T) = removeConsoleLogs M T) :
    removeConsoleLogs M (removeConsoleLogs M T) = removeConsoleLogs M T := by
  calc removeConsoleLogs M (removeConsoleLogs M T)
      = blankNormalize (removeConsoleLogs M T) :=
        congrArg String.mk (removeL_eq_normalize h1)
    _ = removeConsoleLogs M T := h2

/-- C1, witness: the hypotheses of the amended idempotence theorem hold on a
concrete text and the conclusion follows by the theorem. -/
theorem c1_remove_idempotent_once_clean_witness :
    countConsoleLogs ["log"] (removeConsoleLogs ["log"] "const a = 1;") = 0 ∧
    blankNormalize (removeConsoleLogs ["log"] "const a = 1;") =
      removeConsoleLogs ["log"] "const a = 1;" ∧
    removeConsoleLogs ["log"] (removeConsoleLogs ["log"] "const a = 1;") =
      removeConsoleLogs ["log"] "const a = 1;" :=
  ⟨by decide, by decide,
    c1_remove_idempotent_once_clean ["log"] "const a = 1;" (by decide) (by decide)⟩

/-- C2, counterexample: a text with a whitespace-only line has no detectable
console call, yet removeConsoleLogs changes it, because the final
normalization substitutions run unconditionally. -/
theorem c2_counterexample :
    countConsoleLogs ["log"] " " = 0 ∧ removeConsoleLogs ["log"] " " ≠ " " :=
  ⟨by decide, by decide⟩

/-- C2, amended: if the detector finds nothing then removeConsoleLogs returns
exactly the blank-line normalization of the input; the input is returned
byte-for-byte only when it is already normalized. -/
theorem c2_detect_zero_remove_normalizes (M : List String) (T : String)
    (h : countConsoleLogs M T = 0) :
    removeConsoleLogs M T = blankNormalize T :=
  congrArg String.mk (removeL_eq_normalize h)

/-- C2, witness: a concrete instance of the amended theorem with its
hypothesis discharged by computation. -/
theorem c2_detect_zero_remove_normalizes_witness :
    countConsoleLogs ["log"] "x" = 0 ∧
    removeConsoleLogs ["log"] "x" = blankNormalize "x" :=
  ⟨by decide, c2_detect_zero_remove_normalizes ["log"] "x" (by decide)⟩

/-- C3, counterexample: removing the single-line statement does not delete the
line terminator, so the claimed output with the neighbors joined by one
newline is wrong. -/
theorem c3_counterexample :
    removeConsoleLogs ["log"] exStatement ≠ "const a = 1;\nconst b = 2;" := by
  decide

/-- C3, amended: the single-line pass removes the statement text (including
the trailing semicolon) but keeps the line terminator, leaving an empty line
between the neighbors. -/
theorem c3_single_line_removal_keeps_terminator :
    removeConsoleLogs ["log"] exStatement = "const a = 1;\n\nconst b = 2;" := by
  decide

/-- C4, counterexample: a text consisting of four blank lines (four newline
characters) followed by content still has a run of three blank lines after
removal, not two, because the collapse needs four newline characters and
emits three. -/
theorem c4_counterexample :
    maxBlankRun "\n\n\n\nx" = 4 ∧
    maxBlankRun (removeConsoleLogs ["log"] "\n\n\n\nx") ≠ 2 :=
  ⟨by decide, by decide⟩

/-- C4, amended: a run of four blank lines enclosed between non-blank lines
(five newline characters) is reduced to exactly two blank lines, but a run at
the start of the text spelled with only four newline characters is reduced to
three blank lines, since the substitution consumes runs of four or more
newlines and emits three. -/
theorem c4_blank_line_collapse_behavior :
    removeConsoleLogs ["log"] "a\n\n\n\n\nb" = "a\n\n\nb" ∧
    maxBlankRun "a\n\n\n\n\nb" = 4 ∧
    maxBlankRun (removeConsoleLogs ["log"] "a\n\n\n\n\nb") = 2 ∧
    removeConsoleLogs ["log"] "\n\n\n\nx" = "\n\n\nx" ∧
    maxBlankRun (removeConsoleLogs ["log"] "\n\n\n\nx") = 3 := by
  decide

/-- C5, counterexample: the commented console line is not removed whole; the
iterative brace-call pass erases the call text inside the comment first, so
the commented-line pass no longer matches and the comment marker line
survives. -/
theorem c5_counterexample :
    removeConsoleLogs ["log"] exCommented ≠ "const a = 1;" := by decide

/-- C5, amended: on the commented example the output keeps the comment marker,
a trailing space and the line terminator: the brace-call pass deletes the call
text inside the comment before the commented-line pass can see it. -/
theorem c5_commented_line_partially_removed :
    removeConsoleLogs ["log"] exCommented = "// \nconst a = 1;" := by decide

/-- C6: a console call whose arguments span several lines is counted exactly
once by the detector. -/
theorem c6_multiline_call_counted_once :
    countConsoleLogs ["log"] exMultiLine = 1 := by decide

/-- C7: the iterative brace-call pass performs at most five substitution
applications, stops as soon as one application changes nothing (otherwise the
final text is a fixpoint of the substitution), and the instrumented loop
computes exactly the pass used by removeConsoleLogs. -/
theorem c7_pass3_iteration_ceiling (M : List String) (T : String) :
    (pass3LoopCount (M.map String.data) maxIterations [] T.data).2 ≤ 5 ∧
    ((pass3LoopCount (M.map String.data) maxIterations [] T.data).2 = 5 ∨
      pass3Step (M.map String.data)
          (pass3LoopCount (M.map String.data) maxIterations [] T.data).1 =
        (pass3LoopCount (M.map String.data) maxIterations [] T.data).1) ∧
    (pass3LoopCount (M.map String.data) maxIterations [] T.data).1 =
      pass3Loop (M.map String.data) maxIterations [] T.data :=
  ⟨pass3LoopCount_le maxIterations [] T.data,
    pass3LoopCount_stop maxIterations [] T.data (Or.inl rfl),
    pass3LoopCount_fst maxIterations [] T.data⟩

/-- C8: one iteration of the brace-call pass decomposes the text into
unmatched gaps and matched candidates; every match containing a left brace or
the word function is kept verbatim in the output and every other match is
erased, the gaps being preserved. -/
theorem c8_brace_function_matches_preserved (M : List String) (T : String) :
    pass3Step (M.map String.data) T.data =
      joinP (fun m =>
          if containsChar m lbrace || containsSub functionWord m then m else [])
        (partsAux (complexPattern (M.map String.data)) (T.data.length + 1)
          none T.data) ∧
    joinP (fun m => m)
      (partsAux (complexPattern (M.map String.data)) (T.data.length + 1)
        none T.data) = T.data := by
  constructor
  · have h1 : pass3Step (M.map String.data) T.data =
        joinP complexCallback
          (partsAux (complexPattern (M.map String.data)) (T.data.length + 1)
            none T.data) :=
      repAux_eq_joinP (T.data.length + 1) none T.data (Nat.lt_succ_self _)
    rw [h1, funext complexCallback_eq]
  · exact partsAux_assemble (T.data.length + 1) none T.data (Nat.lt_succ_self _)

/-- C9: the detector is a total function into the natural numbers and returns
zero exactly when no position of the text matches the detector pattern; the
remover is likewise a total function on strings (both are plain Lean
functions, so neither can raise an error). -/
theorem c9_count_zero_iff_no_match (M : List String) (T : String) :
    countConsoleLogs M T = 0 ↔ NoDetMatch (M.map String.data) T.data :=
  countL_eq_zero_iff

/-- C10: the remover never makes a text longer: every substitution either
erases its match, keeps it verbatim, or replaces at least four characters with
three newlines. -/
theorem c10_remove_length_le (M : List String) (T : String) :
    (removeConsoleLogs M T).length ≤ T.length :=
  removeL_len

end ConsoleCleaner
